import Mathlib

/-!
# Verification of the NewsAnalyticsAI normalization and deduplication core

Shallow embedding of `src/utils/text.ts` and `src/utils/dedupe.ts` (the
content normalization and deduplication engine) and proofs about it.

Strings are modelled through their character lists.  JavaScript regular
expression character classes are modelled on the ASCII range they denote
(`\w`, `\d`, `[A-Za-z]` are ASCII in JavaScript without the `u` flag);
`\s` is modelled by the ASCII whitespace characters (JavaScript
additionally treats some rare Unicode spaces as `\s`, which no claim
touches).  `String.toLowerCase` / `toUpperCase` are modelled by
`Char.toLower` / `Char.toUpper`, exact on ASCII.
-/

set_option autoImplicit false

namespace NewsAnalytics

/-- ASCII whitespace, modelling the JavaScript regex class `\s`. -/
def jsIsSpace (c : Char) : Bool :=
  c = ' ' || c = '\t' || c = '\n' || c = '\r' || c = '\x0b' || c = '\x0c'

/-- ASCII digit, modelling the JavaScript regex class `\d`. -/
def jsIsDigit (c : Char) : Bool :=
  '0' ≤ c && c ≤ '9'

/-- Word character, modelling the JavaScript regex class `\w` = `[A-Za-z0-9_]`. -/
def jsIsWordChar (c : Char) : Bool :=
  ('a' ≤ c && c ≤ 'z') || ('A' ≤ c && c ≤ 'Z') || jsIsDigit c || c = '_'

/-- Split a character list at every character satisfying `p`, keeping empty
pieces, like JavaScript `String.prototype.split` with a single-character
class.  `splitChar p [] = [[]]`, matching `"".split(re) == [""]`. -/
def splitChar (p : Char → Bool) (cs : List Char) : List (List Char) :=
  cs.foldr
    (fun c acc =>
      if p c then [] :: acc
      else
        match acc with
        | [] => [[c]]
        | w :: ws => (c :: w) :: ws)
    [[]]

/-- The nonempty pieces of `splitChar p`: splitting on a *run* of separator
characters, like `split(/[..]+/)` followed by dropping empty tokens. -/
def splitNE (p : Char → Bool) (cs : List Char) : List (List Char) :=
  (splitChar p cs).filter (· ≠ [])

/-- The whitespace-run delimited words of a character list. -/
def wordsOfChars (cs : List Char) : List (List Char) :=
  splitNE jsIsSpace cs

/-- Join pieces with a separator, like `Array.prototype.join`. -/
def joinSep (sep : List Char) : List (List Char) → List Char
  | [] => []
  | [w] => w
  | w :: ws => w ++ sep ++ joinSep sep ws

/-- `Array.prototype.join` on strings. -/
def strJoin (sep : String) (l : List String) : String :=
  (joinSep sep.toList (l.map String.toList)).asString

/-- Remove leading and trailing whitespace, modelling `String.prototype.trim`
(on ASCII whitespace). -/
def jsTrimL (cs : List Char) : List Char :=
  ((cs.dropWhile jsIsSpace).reverse.dropWhile jsIsSpace).reverse

/-- Collapse whitespace runs to single spaces and trim, modelling
`.replace(/\s+/g, ' ').trim()`. -/
def collapseWs (cs : List Char) : List Char :=
  joinSep [' '] (wordsOfChars cs)

/-- `normalizeTitle` from `src/utils/text.ts` on character lists:
lowercase, remove `[$,\d,]+` (dollar signs, commas and digits), remove
`[^\w\s]` (anything that is neither a word character nor whitespace),
collapse whitespace to single spaces, trim. -/
def normalizeTitleL (cs : List Char) : List Char :=
  collapseWs
    (((cs.map Char.toLower).filter
        (fun c => !(c = '$' || c = ',' || jsIsDigit c))).filter
      (fun c => jsIsWordChar c || jsIsSpace c))

/-- `normalizeTitle` from `src/utils/text.ts`. -/
def normalizeTitle (title : String) : String :=
  (normalizeTitleL title.toList).asString

/-- Locate the first `"://"` and return what follows it, `none` when the
list has no such separator. -/
def findAfterSchemeSep : List Char → Option (List Char)
  | ':' :: '/' :: '/' :: rest => some rest
  | _ :: rest => findAfterSchemeSep rest
  | [] => none

/-- `extractDomain` from `src/utils/text.ts`: `new URL(url).hostname`, and on
any parse failure the original string.  The host-environment URL parser is
modelled by a simplified WHATWG rule: the hostname is what stands between
the first `"://"` and the next `/`, `:`, `?` or `#`; a string without a
`"://"` or with an empty hostname fails to parse, so the input is returned
unchanged. -/
def extractDomain (url : String) : String :=
  match findAfterSchemeSep url.toList with
  | some rest =>
    let host := rest.takeWhile (fun c => !(c = '/' || c = ':' || c = '?' || c = '#'))
    if host = [] then url else host.asString
  | none => url

/-- The `Article` record consumed by the dedupe engine
(`src/utils/dedupe.ts`).  `ts_published` carries the already-parsed
timestamp in milliseconds: `some t` models a field whose
`new Date(...).getTime()` is `t`, and `none` models an absent field
(coerced by `new Date(a.ts_published || 0)` to epoch zero). -/
structure Article where
  id : String
  title : String
  sourceUrl : String
  sourceDomain : Option String
  ts_published : Option Int
deriving DecidableEq

/-- The domain used for the dedupe key:
`article.sourceDomain || extractDomain(article.sourceUrl)` — the falsy
check falls through both on an absent and on an empty `sourceDomain`. -/
def articleDomain (a : Article) : String :=
  match a.sourceDomain with
  | some d => if d = "" then extractDomain a.sourceUrl else d
  | none => extractDomain a.sourceUrl

/-- `generateDedupeKey` from `src/utils/dedupe.ts`:
`` `${normalizedTitle}|${domain}` ``. -/
def generateDedupeKey (a : Article) : String :=
  normalizeTitle a.title ++ "|" ++ articleDomain a

/-- First-occurrence-per-key filtering with an accumulator of keys already
seen: the common skeleton of a JavaScript `Map`/`Set` that is only ever
written on a missing key and read back in insertion order. -/
def firstByGo {α κ : Type} [DecidableEq κ] (key : α → κ) (seen : List κ) : List α → List α
  | [] => []
  | a :: rest =>
    if key a ∈ seen then firstByGo key seen rest
    else a :: firstByGo key (key a :: seen) rest

/-- `dedupeArticles` from `src/utils/dedupe.ts`: keep the first article per
`generateDedupeKey`, in input order (`Map` insertion order). -/
def dedupeArticles (articles : List Article) : List Article :=
  firstByGo generateDedupeKey [] articles

/-- First-occurrence deduplication, modelling `Array.from(new Set(xs))`. -/
def jsSetDedup {α : Type} [DecidableEq α] (l : List α) : List α :=
  firstByGo id [] l

/-- Follows the spec's words for the set-like collapse: "deduplicate while
preserving first-seen order" — keep each element's first occurrence in
place and delete every later duplicate.  Defined independently of
`jsSetDedup` (which mirrors the source's `Set`), to be compared with it:
their proved equality pins the concrete output order of the collapse. -/
def firstSeenDedup {α : Type} [DecidableEq α] : List α → List α
  | [] => []
  | a :: rest => a :: (firstSeenDedup rest).filter (· ≠ a)

/-! ## Ticker normalization (`normalizeTickers`, `src/utils/text.ts`) -/

/-- The ticker whitelist of `normalizeTickers`, in its declared (Set
insertion) order. -/
def whitelist : List String :=
  ["BTC", "ETH", "MARA", "RIOT", "BCH", "BNB", "XRP", "SOL", "ADA", "DOT",
   "AVAX", "MATIC", "LTC", "UNI", "LINK", "ATOM", "FIL", "TRX", "XLM", "ALGO",
   "VET", "ICP", "COIN", "MSTR", "HOOD", "SOFI", "SQ", "PYPL", "V", "MA",
   "AAPL", "MSFT", "GOOGL", "AMZN", "TSLA", "META", "NVDA", "AMD", "INTC",
   "SPY", "QQQ", "IWM", "TLT", "GLD", "SLV", "USO", "UNG", "DBA", "DBC"]

/-- The whitelist as character lists. -/
def whitelistL : List (List Char) :=
  whitelist.map String.toList

/-- A separator character of the token split `split(/[,\s/|]+/)`. -/
def jsSepChar (c : Char) : Bool :=
  c = ',' || c = '/' || c = '|' || jsIsSpace c

/-- The token list of `normalizeTickers`:
`raw.split(/[,\s/|]+/).map(s => s.trim().toUpperCase()).filter(Boolean)`.
Splitting on separator *runs* and then dropping empties coincides with
splitting on single separators and dropping empties. -/
def tokensOf (raw : String) : List (List Char) :=
  ((splitChar jsSepChar raw.toList).map
    (fun s => (jsTrimL s).map Char.toUpper)).filter (· ≠ [])

/-- Global, left-to-right, non-overlapping replacement of `pat` by `rep`,
modelling `buf.replace(new RegExp(pat, 'g'), rep)` for a literal pattern
without regex metacharacters.  The `Nat` argument counts characters of a
just-matched pattern still to be consumed. -/
def replAux (pat rep : List Char) : Nat → List Char → List Char
  | _, [] => []
  | skip+1, _ :: cs => replAux pat rep skip cs
  | 0, c :: cs =>
    if pat.isPrefixOf (c :: cs) then rep ++ replAux pat rep (pat.length - 1) cs
    else c :: replAux pat rep 0 cs

/-- Replace every occurrence of `pat` in `cs` by `rep` (leftmost,
non-overlapping). -/
def replaceAll (pat rep cs : List Char) : List Char :=
  replAux pat rep 0 cs

/-- The concatenation-candidate re-split of `normalizeTickers`: for each
whitelist word in declared order, replace every occurrence in the buffer
by the space-padded word, then split the buffer on whitespace and drop
empty sub-tokens. -/
def splitGlued (token : List Char) : List (List Char) :=
  splitNE jsIsSpace
    (whitelistL.foldl (fun buf w => replaceAll w (' ' :: (w ++ [' '])) buf) token)

/-- One step of the merge loop of `normalizeTickers`: a token longer than 4
characters that is not itself whitelisted is re-split; every other token is
kept as is. -/
def mergeToken (token : List Char) : List (List Char) :=
  if 4 < token.length ∧ token ∉ whitelistL then splitGlued token else [token]

/-- The `merged` token list of `normalizeTickers`. -/
def mergedOf (raw : String) : List (List Char) :=
  (tokensOf raw).foldl (fun acc t => acc ++ mergeToken t) []

/-- The final symbol list of `normalizeTickers`:
`Array.from(new Set(merged.filter(t => whitelist.has(t))))`. -/
def tickersOf (raw : String) : List (List Char) :=
  jsSetDedup ((mergedOf raw).filter (fun t => t ∈ whitelistL))

/-- `normalizeTickers` from `src/utils/text.ts`. -/
def normalizeTickers (raw : String) : String :=
  if raw = "" then "" else strJoin ", " ((tickersOf raw).map List.asString)

/-! ## Truncation and language detection (`src/utils/text.ts`) -/

/-- `truncateByWords` on character lists: `words = text.trim().split(/\s+/)`
(which is `[""]` on an all-whitespace or empty trim result, and the
whitespace-run words otherwise, the trimmed input having no leading
separator); unchanged input when `words.length ≤ maxWords`, else the first
`maxWords` words joined by single spaces with `'…'` appended. -/
def truncateByWordsL (cs : List Char) (maxWords : Nat) : List Char :=
  if cs = [] then []
  else
    let tr := jsTrimL cs
    let words := if tr = [] then [[]] else wordsOfChars tr
    if words.length ≤ maxWords then cs
    else joinSep [' '] (words.take maxWords) ++ ['…']

/-- `truncateByWords` from `src/utils/text.ts` (`maxWords` defaults to 22 at
the call sites; the parameter is explicit here). -/
def truncateByWords (text : String) (maxWords : Nat) : String :=
  (truncateByWordsL text.toList maxWords).asString

/-- The number of whitespace-run delimited words of a string — the word
count the specification's truncation property speaks about. -/
def wordCount (text : String) : Nat :=
  (wordsOfChars text.toList).length

/-- The result type of `detectLanguage`. -/
inductive Lang where
  | ru
  | en
  | unknown
deriving DecidableEq

/-- A character of the regex class `[А-Яа-яЁё]` (the Russian alphabet;
`А`..`я` is the contiguous block U+0410–U+044F). -/
def isCyrillicChar (c : Char) : Bool :=
  ('А' ≤ c && c ≤ 'я') || c = 'Ё' || c = 'ё'

/-- A character of the regex class `[A-Za-z]`. -/
def isLatinChar (c : Char) : Bool :=
  ('A' ≤ c && c ≤ 'Z') || ('a' ≤ c && c ≤ 'z')

/-- `detectLanguage` from `src/utils/text.ts`: `unknown` on empty text, else
`ru` if any Cyrillic character is present (checked first), else `en` if any
Latin character is present, else `unknown`. -/
def detectLanguage (text : String) : Lang :=
  if text = "" then .unknown
  else if text.toList.any isCyrillicChar then .ru
  else if text.toList.any isLatinChar then .en
  else .unknown

/-! ## Topic grouping (`src/utils/dedupe.ts`) -/

/-- Lexicographic less-or-equal on character lists by code points — the
string order of the default `Array.prototype.sort()` comparator
(UTF-16 code units; identical for the Basic Multilingual Plane). -/
def charListLe : List Char → List Char → Bool
  | [], _ => true
  | _ :: _, [] => false
  | a :: as, b :: bs => if a < b then true else if b < a then false else charListLe as bs

/-- The JavaScript default sort order on strings. -/
def strLe (a b : String) : Bool :=
  charListLe a.toList b.toList

/-- Insertion of a string into a `strLe`-sorted list. -/
def insertStr (w : String) : List String → List String
  | [] => [w]
  | x :: xs => if strLe w x then w :: x :: xs else x :: insertStr w xs

/-- Sorting a list of strings by insertion, modelling
`Array.prototype.sort()` with the default comparator (a sorted permutation
of the input; equal sort keys are equal strings, so any sorted permutation
is the JavaScript result). -/
def sortJs (l : List String) : List String :=
  l.foldr insertStr []

/-- The qualifying topic words of a title: `normalizeTitle(title).split(' ')`
filtered to words longer than 3 characters (`word.length > 3`). -/
def qualifyingWords (title : String) : List String :=
  ((splitChar (· = ' ') (normalizeTitle title).toList).map List.asString).filter
    (fun w => 3 < w.length)

/-- `extractTopicKey` from `src/utils/dedupe.ts`:
`normalizeTitle(title).split(' ')`, keep words longer than 3 characters,
`slice(0, 3)`, `sort()`, `join(' ')`, with `'other'` when the result is the
empty string. -/
def extractTopicKey (title : String) : String :=
  let key := strJoin " " (sortJs ((qualifyingWords title).take 3))
  if key = "" then "other" else key

/-- Follows the spec's words for the topic key: "take at most the first 3
such words after sorting them alphabetically" — sort all qualifying words
alphabetically first, then take the first 3.  Defined only for comparison
with `extractTopicKey`, which follows the source (`slice(0, 3)` before
`sort()`). -/
def specTopicKey (title : String) : String :=
  let key := strJoin " " ((sortJs (qualifyingWords title)).take 3)
  if key = "" then "other" else key

/-- Append an article to the group of key `k`, creating the group at the end
when the key is new — one `groups.get(topicKey)!.push(article)` step of
`groupArticlesByTopic` on the insertion-ordered `Map`. -/
def pushToGroup : List (String × List Article) → String → Article → List (String × List Article)
  | [], k, a => [(k, [a])]
  | (k', g) :: rest, k, a =>
    if k' = k then (k', g ++ [a]) :: rest
    else (k', g) :: pushToGroup rest k a

/-- The grouping loop of `groupArticlesByTopic`. -/
def groupGo (acc : List (String × List Article)) : List Article → List (String × List Article)
  | [] => acc
  | a :: rest => groupGo (pushToGroup acc (extractTopicKey a.title) a) rest

/-- `groupArticlesByTopic` from `src/utils/dedupe.ts`: the groups of the
insertion-ordered key map, in key first-appearance order. -/
def groupArticlesByTopic (articles : List Article) : List (List Article) :=
  (groupGo [] articles).map Prod.snd

/-! ## Temporal deduplication (`src/utils/dedupe.ts`) -/

/-- The timestamp `new Date(article.ts_published || 0).getTime()` used by
`filterTemporalDuplicates`: the parsed time, or epoch zero when the field
is absent (falsy). -/
def articleTime (a : Article) : Int :=
  match a.ts_published with
  | some t => t
  | none => 0

/-- `Map.get` on the association-list model of the `seen` map of
`filterTemporalDuplicates`; insertion is modelled by shadowing `cons`. -/
def seenLookup (k : String) : List (String × Int) → Option Int
  | [] => none
  | (k', v) :: rest => if k' = k then some v else seenLookup k rest

/-- The loop of `filterTemporalDuplicates` with its `seen` map (dedupe key →
timestamp of the last *kept* article).  The keep condition is
`!lastSeen || (articleTime - lastSeen) > timeWindowMs`: a JavaScript falsy
check, so a *stored* timestamp of `0` passes it exactly like a missing
entry.  A kept article overwrites the stored timestamp; a rejected one
leaves it untouched. -/
def temporalGo (timeWindowMs : Int) (seen : List (String × Int)) : List Article → List Article
  | [] => []
  | a :: rest =>
    match seenLookup (generateDedupeKey a) seen with
    | none => a :: temporalGo timeWindowMs ((generateDedupeKey a, articleTime a) :: seen) rest
    | some lastSeen =>
      if lastSeen = 0 ∨ articleTime a - lastSeen > timeWindowMs then
        a :: temporalGo timeWindowMs ((generateDedupeKey a, articleTime a) :: seen) rest
      else temporalGo timeWindowMs seen rest

/-- `filterTemporalDuplicates` from `src/utils/dedupe.ts` (the source
defaults `timeWindowMs` to one hour, `60 * 60 * 1000` ms; the parameter is
explicit here). -/
def filterTemporalDuplicates (timeWindowMs : Int) (articles : List Article) : List Article :=
  temporalGo timeWindowMs [] articles

/-! ## Properties of first-occurrence filtering -/

section FirstBy

variable {α κ : Type} [DecidableEq κ] (key : α → κ)

theorem firstByGo_sublist (l : List α) : ∀ seen, (firstByGo key seen l).Sublist l := by
  induction l with
  | nil => intro seen; simp [firstByGo]
  | cons a rest ih =>
    intro seen
    by_cases h : key a ∈ seen
    · simp only [firstByGo, if_pos h]
      exact (ih seen).cons a
    · simp only [firstByGo, if_neg h]
      exact (ih (key a :: seen)).cons₂ a

theorem firstByGo_key_not_mem (l : List α) :
    ∀ seen, ∀ x ∈ firstByGo key seen l, key x ∉ seen := by
  induction l with
  | nil => intro seen x hx; simp [firstByGo] at hx
  | cons a rest ih =>
    intro seen x hx
    by_cases h : key a ∈ seen
    · simp only [firstByGo, if_pos h] at hx
      exact ih seen x hx
    · simp only [firstByGo, if_neg h, List.mem_cons] at hx
      rcases hx with rfl | hx
      · exact h
      · have := ih (key a :: seen) x hx
        exact fun hs => this (List.mem_cons_of_mem _ hs)

theorem firstByGo_keys_nodup (l : List α) :
    ∀ seen, ((firstByGo key seen l).map key).Nodup := by
  induction l with
  | nil => intro seen; simp [firstByGo]
  | cons a rest ih =>
    intro seen
    by_cases h : key a ∈ seen
    · simp only [firstByGo, if_pos h]
      exact ih seen
    · simp only [firstByGo, if_neg h, List.map_cons, List.nodup_cons]
      refine ⟨?_, ih (key a :: seen)⟩
      intro hmem
      rcases List.mem_map.mp hmem with ⟨x, hx, hkx⟩
      exact firstByGo_key_not_mem key rest (key a :: seen) x hx (hkx ▸ List.mem_cons_self _ _)

theorem firstByGo_complete (l : List α) :
    ∀ seen, ∀ b ∈ l, key b ∈ seen ∨ ∃ x ∈ firstByGo key seen l, key x = key b := by
  induction l with
  | nil => intro seen b hb; simp at hb
  | cons a rest ih =>
    intro seen b hb
    rcases List.mem_cons.mp hb with rfl | hb
    · by_cases h : key b ∈ seen
      · exact Or.inl h
      · exact Or.inr ⟨b, by simp [firstByGo, if_neg h], rfl⟩
    · by_cases h : key a ∈ seen
      · rcases ih seen b hb with hs | ⟨x, hx, hkx⟩
        · exact Or.inl hs
        · exact Or.inr ⟨x, by simp only [firstByGo, if_pos h]; exact hx, hkx⟩
      · rcases ih (key a :: seen) b hb with hs | ⟨x, hx, hkx⟩
        · rcases List.mem_cons.mp hs with heq | hs
          · exact Or.inr ⟨a, by simp [firstByGo, if_neg h], heq.symm⟩
          · exact Or.inl hs
        · exact Or.inr ⟨x, by simp only [firstByGo, if_neg h, List.mem_cons]; exact Or.inr hx, hkx⟩

theorem firstByGo_first (l : List α) :
    ∀ seen, ∀ x ∈ firstByGo key seen l,
      ∃ l1 l2, l = l1 ++ x :: l2 ∧ ∀ b ∈ l1, key b ∈ seen ∨ key b ≠ key x := by
  induction l with
  | nil => intro seen x hx; simp [firstByGo] at hx
  | cons a rest ih =>
    intro seen x hx
    by_cases h : key a ∈ seen
    · simp only [firstByGo, if_pos h] at hx
      rcases ih seen x hx with ⟨l1, l2, rfl, hl1⟩
      exact ⟨a :: l1, l2, rfl, by
        intro b hb
        rcases List.mem_cons.mp hb with rfl | hb
        · exact Or.inl h
        · exact hl1 b hb⟩
    · simp only [firstByGo, if_neg h, List.mem_cons] at hx
      rcases hx with rfl | hx
      · exact ⟨[], rest, rfl, by simp⟩
      · have hne : key x ≠ key a := by
          have := firstByGo_key_not_mem key rest (key a :: seen) x hx
          exact fun he => this (he ▸ List.mem_cons_self _ _)
        rcases ih (key a :: seen) x hx with ⟨l1, l2, rfl, hl1⟩
        refine ⟨a :: l1, l2, rfl, ?_⟩
        intro b hb
        rcases List.mem_cons.mp hb with rfl | hb
        · exact Or.inr (fun he => hne he.symm)
        · rcases hl1 b hb with hs | hne'
          · rcases List.mem_cons.mp hs with heq | hs
            · exact Or.inr (fun he => hne (he.symm.trans heq))
            · exact Or.inl hs
          · exact Or.inr hne'

theorem firstByGo_eq_self (l : List α) :
    ∀ seen, (∀ x ∈ l, key x ∉ seen) → (l.map key).Nodup → firstByGo key seen l = l := by
  induction l with
  | nil => intro seen _ _; simp [firstByGo]
  | cons a rest ih =>
    intro seen hseen hnd
    rw [List.map_cons, List.nodup_cons] at hnd
    obtain ⟨hnotin, hnd'⟩ := hnd
    have ha : key a ∉ seen := hseen a (List.mem_cons_self _ _)
    simp only [firstByGo, if_neg ha]
    congr 1
    apply ih (key a :: seen)
    · intro x hx
      simp only [List.mem_cons]
      rintro (he | hs)
      · exact hnotin (List.mem_map.mpr ⟨x, hx, he⟩)
      · exact hseen x (List.mem_cons_of_mem _ hx) hs
    · exact hnd'

end FirstBy

section FirstSeen

variable {α : Type} [DecidableEq α]

theorem firstByGo_id_eq_filter_firstSeen (l : List α) :
    ∀ seen, firstByGo id seen l = (firstSeenDedup l).filter (fun x => x ∉ seen) := by
  induction l with
  | nil => intro seen; rfl
  | cons a rest ih =>
    intro seen
    by_cases h : a ∈ seen
    · have hid : (id a : α) ∈ seen := h
      simp only [firstByGo, if_pos hid, firstSeenDedup]
      rw [ih seen, List.filter_cons]
      have hda : (decide (a ∉ seen)) = false := by simp [h]
      rw [hda]
      simp only [Bool.false_eq_true, if_neg (by simp : ¬False)]
      rw [List.filter_filter]
      apply List.filter_congr
      intro x _
      by_cases hxa : x = a
      · subst hxa
        simp [h]
      · simp [hxa]
    · simp only [firstByGo, id_eq, firstSeenDedup]
      rw [if_neg h, ih (a :: seen), List.filter_cons]
      have hda : (decide (a ∉ seen)) = true := by simp [h]
      rw [hda, if_pos rfl, List.filter_filter]
      congr 1
      apply List.filter_congr
      intro x _
      by_cases hxa : x = a
      · subst hxa
        simp
      · simp [hxa]

theorem jsSetDedup_eq_firstSeenDedup (l : List α) : jsSetDedup l = firstSeenDedup l := by
  rw [jsSetDedup, firstByGo_id_eq_filter_firstSeen]
  apply List.filter_eq_self.mpr
  intro x _
  simp

end FirstSeen

/-! ## Short unknown tokens pass the merge loop untouched -/

theorem mergeToken_short {t : List Char} (h : ¬(4 < t.length ∧ t ∉ whitelistL)) :
    mergeToken t = [t] := by
  rw [mergeToken, if_neg h]

theorem foldl_mergeToken_id (ts : List (List Char)) :
    ∀ acc, (∀ t ∈ ts, mergeToken t = [t]) →
      ts.foldl (fun acc t => acc ++ mergeToken t) acc = acc ++ ts := by
  induction ts with
  | nil => intro acc _; simp
  | cons t ts ih =>
    intro acc h
    simp only [List.foldl_cons]
    rw [h t (List.mem_cons_self _ _), ih _ (fun u hu => h u (List.mem_cons_of_mem _ hu))]
    simp

theorem normalizeTickers_short_unknown_empty (raw : String)
    (h : ∀ t ∈ tokensOf raw, t.length ≤ 4 ∧ t ∉ whitelistL) :
    normalizeTickers raw = "" := by
  have hall : ∀ t ∈ tokensOf raw, mergeToken t = [t] := by
    intro t ht
    apply mergeToken_short
    rintro ⟨h4, _⟩
    exact absurd (h t ht).1 (by omega)
  have hm : mergedOf raw = tokensOf raw := by
    rw [mergedOf, foldl_mergeToken_id (tokensOf raw) [] hall]
    simp
  have hf : (mergedOf raw).filter (fun t => t ∈ whitelistL) = [] := by
    rw [hm]
    apply List.filter_eq_nil_iff.mpr
    intro t ht
    simp [(h t ht).2]
  have htk : tickersOf raw = [] := by
    rw [tickersOf, hf]
    rfl
  rw [normalizeTickers]
  by_cases he : raw = ""
  · rw [if_pos he]
  · rw [if_neg he, htk]
    rfl

/-! ## Properties of whitespace splitting -/

theorem splitChar_nil (p : Char → Bool) : splitChar p [] = [[]] := rfl

theorem splitChar_cons (p : Char → Bool) (c : Char) (cs : List Char) :
    splitChar p (c :: cs) =
      (if p c then [] :: splitChar p cs
       else
         match splitChar p cs with
         | [] => [[c]]
         | w :: ws => (c :: w) :: ws) := rfl

theorem splitChar_ne_nil (p : Char → Bool) (cs : List Char) : splitChar p cs ≠ [] := by
  induction cs with
  | nil => simp [splitChar]
  | cons c cs ih =>
    rw [splitChar_cons]
    by_cases h : p c
    · simp [h]
    · simp only [if_neg h]
      match hs : splitChar p cs with
      | [] => simp
      | w :: ws => simp

theorem splitNE_cons_sep {p : Char → Bool} {c : Char} (hc : p c = true) (cs : List Char) :
    splitNE p (c :: cs) = splitNE p cs := by
  simp [splitNE, splitChar_cons, hc]

theorem splitNE_dropWhile (p : Char → Bool) (cs : List Char) :
    splitNE p (cs.dropWhile p) = splitNE p cs := by
  induction cs with
  | nil => rfl
  | cons c cs ih =>
    by_cases h : p c
    · rw [List.dropWhile_cons_of_pos h, ih, splitNE_cons_sep h]
    · rw [List.dropWhile_cons_of_neg h]

theorem splitChar_append_sep {p : Char → Bool} {c : Char} (hc : p c = true) (cs : List Char) :
    splitChar p (cs ++ [c]) = splitChar p cs ++ [[]] := by
  induction cs with
  | nil => simp [splitChar, hc]
  | cons d cs ih =>
    rw [List.cons_append, splitChar_cons, splitChar_cons p d cs, ih]
    by_cases hd : p d
    · simp [hd]
    · simp only [if_neg hd]
      match hs : splitChar p cs with
      | [] => exact absurd hs (splitChar_ne_nil p cs)
      | w :: ws => simp

theorem splitNE_append_sep {p : Char → Bool} {c : Char} (hc : p c = true) (cs : List Char) :
    splitNE p (cs ++ [c]) = splitNE p cs := by
  simp [splitNE, splitChar_append_sep hc]

theorem splitNE_dropWhile_reverse (p : Char → Bool) (rs : List Char) :
    splitNE p (rs.dropWhile p).reverse = splitNE p rs.reverse := by
  induction rs with
  | nil => rfl
  | cons c rs ih =>
    by_cases h : p c
    · rw [List.dropWhile_cons_of_pos h, ih, List.reverse_cons, splitNE_append_sep h]
    · rw [List.dropWhile_cons_of_neg h]

theorem wordsOfChars_trim (cs : List Char) :
    wordsOfChars (jsTrimL cs) = wordsOfChars cs := by
  unfold jsTrimL wordsOfChars
  rw [splitNE_dropWhile_reverse jsIsSpace (cs.dropWhile jsIsSpace).reverse,
    List.reverse_reverse, splitNE_dropWhile]

theorem truncateByWordsL_spec (cs : List Char) (m : Nat) (hm : 1 ≤ m) :
    ((wordsOfChars cs).length ≤ m → truncateByWordsL cs m = cs) ∧
    (m < (wordsOfChars cs).length →
      truncateByWordsL cs m = joinSep [' '] ((wordsOfChars cs).take m) ++ ['…']) := by
  by_cases hcs : cs = []
  · subst hcs
    have hw : wordsOfChars ([] : List Char) = [] := rfl
    exact ⟨fun _ => rfl, fun h => absurd h (by rw [hw]; exact Nat.not_lt_zero m)⟩
  · by_cases htr : jsTrimL cs = []
    · have hw : wordsOfChars cs = [] := by
        rw [← wordsOfChars_trim, htr]; rfl
      constructor
      · intro _
        simp only [truncateByWordsL, if_neg hcs, htr, reduceIte]
        rw [if_pos (by simpa using hm)]
      · intro h
        rw [hw] at h
        exact absurd h (Nat.not_lt_zero m)
    · have hw := wordsOfChars_trim cs
      constructor
      · intro hle
        simp only [truncateByWordsL, if_neg hcs, if_neg htr, hw]
        rw [if_pos hle]
      · intro hlt
        simp only [truncateByWordsL, if_neg hcs, if_neg htr, hw]
        rw [if_neg (by omega)]

/-! ## Properties of the temporal `seen` map -/

theorem seenLookup_zero {seen : List (String × Int)} (hz : ∀ p ∈ seen, p.2 = 0)
    {k : String} {v : Int} (h : seenLookup k seen = some v) : v = 0 := by
  induction seen with
  | nil => simp [seenLookup] at h
  | cons p rest ih =>
    obtain ⟨k', v'⟩ := p
    by_cases hk : k' = k
    · simp only [seenLookup, if_pos hk, Option.some.injEq] at h
      rw [← h]
      exact hz (k', v') (List.mem_cons_self _ _)
    · simp only [seenLookup, if_neg hk] at h
      exact ih (fun q hq => hz q (List.mem_cons_of_mem _ hq)) h

theorem temporalGo_all_missing (w : Int) (l : List Article) :
    ∀ seen, (∀ p ∈ seen, p.2 = 0) → (∀ a ∈ l, articleTime a = 0) →
      temporalGo w seen l = l := by
  induction l with
  | nil => intro seen _ _; rfl
  | cons a rest ih =>
    intro seen hz hl
    have ha : articleTime a = 0 := hl a (List.mem_cons_self _ _)
    have hz' : ∀ p ∈ (generateDedupeKey a, articleTime a) :: seen, p.2 = 0 := by
      intro p hp
      rcases List.mem_cons.mp hp with rfl | hp
      · exact ha
      · exact hz p hp
    have hrest : ∀ b ∈ rest, articleTime b = 0 :=
      fun b hb => hl b (List.mem_cons_of_mem _ hb)
    cases hlk : seenLookup (generateDedupeKey a) seen with
    | none =>
      simp only [temporalGo, hlk]
      rw [ih _ hz' hrest]
    | some v =>
      have hv : v = 0 := seenLookup_zero hz hlk
      subst hv
      simp only [temporalGo, hlk]
      rw [if_pos (Or.inl trivial), ih _ hz' hrest]

/-! ## Properties of the topic-key sort and join -/

theorem charListLe_total (as : List Char) : ∀ bs, charListLe as bs = true ∨ charListLe bs as = true := by
  induction as with
  | nil => intro bs; exact Or.inl rfl
  | cons a as ih =>
    intro bs
    cases bs with
    | nil => exact Or.inr rfl
    | cons b bs =>
      by_cases hab : a < b
      · left; simp [charListLe, hab]
      · by_cases hba : b < a
        · right; simp [charListLe, hba]
        · rcases ih bs with h | h
          · left; simp [charListLe, hab, hba, h]
          · right; simp [charListLe, hab, hba, h]

theorem strLe_total (a b : String) : strLe a b = true ∨ strLe b a = true :=
  charListLe_total a.toList b.toList

theorem charListLe_trans :
    ∀ {as bs cs : List Char}, charListLe as bs = true → charListLe bs cs = true →
      charListLe as cs = true := by
  intro as
  induction as with
  | nil => intro bs cs _ _; rfl
  | cons a as ih =>
    intro bs cs h1 h2
    cases bs with
    | nil => simp [charListLe] at h1
    | cons b bs =>
      cases cs with
      | nil => simp [charListLe] at h2
      | cons c cs =>
        simp only [charListLe] at h1 h2 ⊢
        by_cases hab : a < b
        · by_cases hbc : b < c
          · rw [if_pos (lt_trans hab hbc)]
          · by_cases hcb : c < b
            · simp [hbc, hcb] at h2
            · rw [if_pos (lt_of_lt_of_le hab (not_lt.mp hcb))]
        · by_cases hba : b < a
          · simp [hab, hba] at h1
          · have hab' : a = b := le_antisymm (not_lt.mp hba) (not_lt.mp hab)
            subst hab'
            by_cases hac : a < c
            · rw [if_pos hac]
            · by_cases hca : c < a
              · simp [hac, hca] at h2
              · rw [if_neg hac, if_neg hca]
                rw [if_neg hab, if_neg hba] at h1
                rw [if_neg hac, if_neg hca] at h2
                exact ih h1 h2

theorem insertStr_perm (w : String) (l : List String) : (insertStr w l).Perm (w :: l) := by
  induction l with
  | nil => exact List.Perm.refl _
  | cons x xs ih =>
    by_cases h : strLe w x
    · simp only [insertStr, if_pos h]
      exact List.Perm.refl _
    · simp only [insertStr, if_neg h]
      exact (ih.cons x).trans (List.Perm.swap w x xs)

theorem insertStr_sorted (w : String) (l : List String)
    (hl : l.Sorted (fun a b => strLe a b = true)) :
    (insertStr w l).Sorted (fun a b => strLe a b = true) := by
  induction l with
  | nil => simp [insertStr, List.Sorted]
  | cons x xs ih =>
    rw [List.sorted_cons] at hl
    obtain ⟨hx, hxs⟩ := hl
    by_cases h : strLe w x
    · simp only [insertStr, if_pos h]
      rw [List.sorted_cons]
      refine ⟨?_, by rw [List.sorted_cons]; exact ⟨hx, hxs⟩⟩
      intro y hy
      rcases List.mem_cons.mp hy with rfl | hy
      · exact h
      · -- strLe w y by totality through x would need transitivity; use it directly:
        -- from w ≤ x and x ≤ y conclude w ≤ y
        exact charListLe_trans h (hx y hy)
    · simp only [insertStr, if_neg h]
      rw [List.sorted_cons]
      refine ⟨?_, ih hxs⟩
      intro y hy
      have := (insertStr_perm w xs).mem_iff.mp hy
      rcases List.mem_cons.mp this with rfl | hy'
      · rcases strLe_total x y with hxy | hyx
        · exact hxy
        · exact absurd hyx h
      · exact hx y hy'

theorem sortJs_perm (l : List String) : (sortJs l).Perm l := by
  induction l with
  | nil => exact List.Perm.refl _
  | cons a l ih =>
    exact (insertStr_perm a (sortJs l)).trans (ih.cons a)

theorem sortJs_sorted (l : List String) : (sortJs l).Sorted (fun a b => strLe a b = true) := by
  induction l with
  | nil => simp [sortJs, List.Sorted]
  | cons a l ih => exact insertStr_sorted a (sortJs l) ih

theorem asString_eq_empty {l : List Char} (h : l.asString = "") : l = [] :=
  congrArg String.toList h

theorem toList_eq_nil {s : String} (h : s.toList = []) : s = "" := by
  cases s with
  | mk data =>
    simp only [String.toList] at h
    simp [h]

theorem strJoin_space_ne_empty (w : String) (rest : List String) (hw : w ≠ "") :
    strJoin " " (w :: rest) ≠ "" := by
  intro h
  apply hw
  rw [strJoin] at h
  have hl := asString_eq_empty h
  cases rest with
  | nil =>
    simp only [List.map_cons, List.map_nil, joinSep] at hl
    exact toList_eq_nil hl
  | cons r rs =>
    simp only [List.map_cons, joinSep, List.append_assoc] at hl
    rcases List.append_eq_nil.mp hl with ⟨hw', _⟩
    exact toList_eq_nil hw'

/-! ## Properties of topic grouping -/

theorem pushToGroup_fst (acc : List (String × List Article)) (k : String) (a : Article) :
    (pushToGroup acc k a).map Prod.fst =
      if k ∈ acc.map Prod.fst then acc.map Prod.fst else acc.map Prod.fst ++ [k] := by
  induction acc with
  | nil => simp [pushToGroup]
  | cons p rest ih =>
    obtain ⟨k', g⟩ := p
    by_cases h : k' = k
    · subst h
      simp [pushToGroup]
    · simp only [pushToGroup, if_neg h, List.map_cons, ih]
      by_cases hmem : k ∈ rest.map Prod.fst
      · rw [if_pos hmem, if_pos (List.mem_cons_of_mem _ hmem)]
      · rw [if_neg hmem, if_neg ?_]
        · simp
        · intro hc
          rcases List.mem_cons.mp hc with he | hm
          · exact h he.symm
          · exact hmem hm

theorem pushToGroup_inv (acc : List (String × List Article)) (k : String) (a : Article)
    (hk : extractTopicKey a.title = k)
    (hinv : ∀ p ∈ acc, ∀ x ∈ p.2, extractTopicKey x.title = p.1) :
    ∀ p ∈ pushToGroup acc k a, ∀ x ∈ p.2, extractTopicKey x.title = p.1 := by
  induction acc with
  | nil =>
    intro p hp x hx
    simp only [pushToGroup, List.mem_singleton] at hp
    subst hp
    simp only [List.mem_singleton] at hx
    subst hx
    exact hk
  | cons q rest ih =>
    obtain ⟨k', g⟩ := q
    intro p hp x hx
    by_cases h : k' = k
    · simp only [pushToGroup, if_pos h, List.mem_cons] at hp
      rcases hp with rfl | hp
      · rcases List.mem_append.mp hx with hg | ha
        · exact hinv (k', g) (List.mem_cons_self _ _) x hg
        · simp only [List.mem_singleton] at ha
          subst ha
          exact hk.trans h.symm
      · exact hinv p (List.mem_cons_of_mem _ hp) x hx
    · simp only [pushToGroup, if_neg h, List.mem_cons] at hp
      rcases hp with rfl | hp
      · exact hinv (k', g) (List.mem_cons_self _ _) x hx
      · exact ih (fun r hr => hinv r (List.mem_cons_of_mem _ hr)) p hp x hx

theorem pushToGroup_self (acc : List (String × List Article)) (k : String) (a : Article) :
    ∃ p ∈ pushToGroup acc k a, p.1 = k ∧ a ∈ p.2 := by
  induction acc with
  | nil => exact ⟨(k, [a]), List.mem_singleton_self _, rfl, List.mem_singleton_self _⟩
  | cons q rest ih =>
    obtain ⟨k', g⟩ := q
    by_cases h : k' = k
    · exact ⟨(k', g ++ [a]), by simp [pushToGroup, h], h,
        List.mem_append_right _ (List.mem_singleton_self _)⟩
    · rcases ih with ⟨p, hp, hpk, hpa⟩
      exact ⟨p, by simp only [pushToGroup, if_neg h, List.mem_cons]; exact Or.inr hp, hpk, hpa⟩

theorem pushToGroup_mono (acc : List (String × List Article)) (k : String) (a : Article) :
    ∀ p ∈ acc, ∃ q ∈ pushToGroup acc k a, q.1 = p.1 ∧ ∀ x ∈ p.2, x ∈ q.2 := by
  induction acc with
  | nil => intro p hp; simp at hp
  | cons r rest ih =>
    obtain ⟨k', g⟩ := r
    intro p hp
    by_cases h : k' = k
    · rcases List.mem_cons.mp hp with rfl | hp
      · exact ⟨(k', g ++ [a]), by simp [pushToGroup, h], rfl,
          fun x hx => List.mem_append_left _ hx⟩
      · exact ⟨p, by simp only [pushToGroup, if_pos h, List.mem_cons]; exact Or.inr hp,
          rfl, fun x hx => hx⟩
    · rcases List.mem_cons.mp hp with rfl | hp
      · exact ⟨(k', g), by simp only [pushToGroup, if_neg h, List.mem_cons]; exact Or.inl trivial,
          rfl, fun x hx => hx⟩
      · rcases ih p hp with ⟨q, hq, hqk, hqx⟩
        exact ⟨q, by simp only [pushToGroup, if_neg h, List.mem_cons]; exact Or.inr hq,
          hqk, hqx⟩

theorem groupGo_inv (l : List Article) :
    ∀ acc, (∀ p ∈ acc, ∀ x ∈ p.2, extractTopicKey x.title = p.1) →
      ∀ p ∈ groupGo acc l, ∀ x ∈ p.2, extractTopicKey x.title = p.1 := by
  induction l with
  | nil => intro acc hinv; exact hinv
  | cons a rest ih =>
    intro acc hinv
    exact ih _ (pushToGroup_inv acc (extractTopicKey a.title) a rfl hinv)

theorem groupGo_fst_nodup (l : List Article) :
    ∀ acc, (acc.map Prod.fst).Nodup → ((groupGo acc l).map Prod.fst).Nodup := by
  induction l with
  | nil => intro acc h; exact h
  | cons a rest ih =>
    intro acc h
    apply ih
    rw [pushToGroup_fst]
    by_cases hmem : extractTopicKey a.title ∈ acc.map Prod.fst
    · rw [if_pos hmem]; exact h
    · rw [if_neg hmem]
      rw [List.nodup_append]
      refine ⟨h, List.nodup_singleton _, ?_⟩
      intro x hx hx'
      simp only [List.mem_singleton] at hx'
      subst hx'
      exact hmem hx

theorem groupGo_mono (l : List Article) :
    ∀ acc, ∀ p ∈ acc, ∃ q ∈ groupGo acc l, q.1 = p.1 ∧ ∀ x ∈ p.2, x ∈ q.2 := by
  induction l with
  | nil => intro acc p hp; exact ⟨p, hp, rfl, fun x hx => hx⟩
  | cons a rest ih =>
    intro acc p hp
    rcases pushToGroup_mono acc (extractTopicKey a.title) a p hp with ⟨q₁, hq₁, hk₁, hs₁⟩
    rcases ih _ q₁ hq₁ with ⟨q, hq, hk, hs⟩
    exact ⟨q, hq, hk.trans hk₁, fun x hx => hs x (hs₁ x hx)⟩

theorem groupGo_complete (l : List Article) :
    ∀ acc, ∀ x ∈ l, ∃ p ∈ groupGo acc l, p.1 = extractTopicKey x.title ∧ x ∈ p.2 := by
  induction l with
  | nil => intro acc x hx; simp at hx
  | cons a rest ih =>
    intro acc x hx
    rcases List.mem_cons.mp hx with rfl | hx
    · rcases pushToGroup_self acc (extractTopicKey x.title) x with ⟨p₀, hp₀, hk₀, hx₀⟩
      rcases groupGo_mono rest _ p₀ hp₀ with ⟨q, hq, hk, hs⟩
      exact ⟨q, hq, hk.trans hk₀, hs x hx₀⟩
    · exact ih _ x hx

theorem fst_nodup_inj (L : List (String × List Article))
    (h : (L.map Prod.fst).Nodup) :
    ∀ p ∈ L, ∀ q ∈ L, p.1 = q.1 → p = q := by
  induction L with
  | nil => intro p hp; simp at hp
  | cons r t ih =>
    rw [List.map_cons, List.nodup_cons] at h
    obtain ⟨hr, ht⟩ := h
    intro p hp q hq hpq
    rcases List.mem_cons.mp hp with hpr | hp
    · rcases List.mem_cons.mp hq with hqr | hq
      · rw [hpr, hqr]
      · exfalso
        have hm : q.1 ∈ t.map Prod.fst := List.mem_map.mpr ⟨q, hq, rfl⟩
        rw [← hpq, hpr] at hm
        exact hr hm
    · rcases List.mem_cons.mp hq with hqr | hq
      · exfalso
        have hm : p.1 ∈ t.map Prod.fst := List.mem_map.mpr ⟨p, hp, rfl⟩
        rw [hpq, hqr] at hm
        exact hr hm
      · exact ih ht p hp q hq hpq

theorem temporalGo_cons (w : Int) (seen : List (String × Int)) (a : Article)
    (rest : List Article) :
    temporalGo w seen (a :: rest) =
      match seenLookup (generateDedupeKey a) seen with
      | none => a :: temporalGo w ((generateDedupeKey a, articleTime a) :: seen) rest
      | some lastSeen =>
        if lastSeen = 0 ∨ articleTime a - lastSeen > w then
          a :: temporalGo w ((generateDedupeKey a, articleTime a) :: seen) rest
        else temporalGo w seen rest := rfl

/-! ## The claims -/

/-- Claim C1: for every batch of articles, `dedupeArticles` returns a
subsequence of the input containing exactly the first article observed for
each dedupe key, in original input order; later articles with an
already-seen key are discarded entirely.  In particular three articles
with keys `A, A, B` reduce to the first `A` and the `B`. -/
theorem dedupeArticles_keeps_first_per_key :
    (∀ l : List Article,
        (dedupeArticles l).Sublist l ∧
        ((dedupeArticles l).map generateDedupeKey).Nodup ∧
        (∀ x ∈ dedupeArticles l, ∃ l1 l2, l = l1 ++ x :: l2 ∧
            ∀ b ∈ l1, generateDedupeKey b ≠ generateDedupeKey x) ∧
        (∀ b ∈ l, ∃ x ∈ dedupeArticles l, generateDedupeKey x = generateDedupeKey b)) ∧
    (∀ a1 a2 a3 : Article, generateDedupeKey a2 = generateDedupeKey a1 →
        generateDedupeKey a3 ≠ generateDedupeKey a1 →
        dedupeArticles [a1, a2, a3] = [a1, a3]) := by
  constructor
  · intro l
    refine ⟨firstByGo_sublist _ l [], firstByGo_keys_nodup _ l [], ?_, ?_⟩
    · intro x hx
      rcases firstByGo_first generateDedupeKey l [] x hx with ⟨l1, l2, rfl, hl1⟩
      exact ⟨l1, l2, rfl, fun b hb => (hl1 b hb).resolve_left (by simp)⟩
    · intro b hb
      rcases firstByGo_complete generateDedupeKey l [] b hb with hs | h
      · simp at hs
      · exact h
  · intro a1 a2 a3 h2 h3
    simp [dedupeArticles, firstByGo, h2, h3]

/-- Concrete instantiation of claim C1's `A, A, B` consequence. -/
theorem dedupeArticles_keeps_first_per_key_witness :
    dedupeArticles
        [⟨"1", "Bitcoin rises", "https://a.com/x", some "a.com", none⟩,
         ⟨"2", "Bitcoin rises", "https://a.com/y", some "a.com", none⟩,
         ⟨"3", "Ethereum falls", "https://b.com/x", some "b.com", none⟩] =
      [⟨"1", "Bitcoin rises", "https://a.com/x", some "a.com", none⟩,
       ⟨"3", "Ethereum falls", "https://b.com/x", some "b.com", none⟩] :=
  dedupeArticles_keeps_first_per_key.2 _ _ _ (by decide) (by decide)

/-- Claim C2 (evaluation at the disputed input): `normalizeTickers` on the
concatenated token `"MARARIOTBTC"` produces `"MA, RIOT, BTC"`, not the
`"BTC, MARA, RIOT"` required by the specification and by the repository's
own unit test: the later whitelist entry `MA` re-splits the
already-recovered `MARA`, and the output keeps position order, not
whitelist order. -/
theorem normalizeTickers_glued_example :
    normalizeTickers "MARARIOTBTC" = "MA, RIOT, BTC" ∧
    normalizeTickers "MARARIOTBTC" ≠ "BTC, MARA, RIOT" :=
  ⟨by decide, by decide⟩

/-- Claim C3: three same-key articles at `t0`, `t0+30min`, `t0+2h`
(`t0 ≠ 0`) with a 1-hour window keep exactly the 1st and the 3rd; the 2nd
is rejected against the kept `t0`, leaving the anchor at `t0`, so the 3rd
is 2 hours past it. -/
theorem filterTemporalDuplicates_anchored (a1 a2 a3 : Article) (t0 : Int)
    (k2 : generateDedupeKey a2 = generateDedupeKey a1)
    (k3 : generateDedupeKey a3 = generateDedupeKey a1)
    (h1 : a1.ts_published = some t0)
    (h2 : a2.ts_published = some (t0 + 1800000))
    (h3 : a3.ts_published = some (t0 + 7200000))
    (ht : t0 ≠ 0) :
    filterTemporalDuplicates 3600000 [a1, a2, a3] = [a1, a3] := by
  have e1 : articleTime a1 = t0 := by simp [articleTime, h1]
  have e2 : articleTime a2 = t0 + 1800000 := by simp [articleTime, h2]
  have e3 : articleTime a3 = t0 + 7200000 := by simp [articleTime, h3]
  have l2 : seenLookup (generateDedupeKey a2)
      [(generateDedupeKey a1, articleTime a1)] = some t0 := by
    simp [seenLookup, k2, e1]
  have l3 : seenLookup (generateDedupeKey a3)
      [(generateDedupeKey a1, articleTime a1)] = some t0 := by
    simp [seenLookup, k3, e1]
  have cond2 : ¬(t0 = 0 ∨ articleTime a2 - t0 > 3600000) := by
    rw [e2]
    rintro (hz | hgt)
    · exact ht hz
    · omega
  have cond3 : t0 = 0 ∨ articleTime a3 - t0 > 3600000 := by
    rw [e3]
    right
    omega
  show a1 :: temporalGo 3600000 [(generateDedupeKey a1, articleTime a1)] [a2, a3] = [a1, a3]
  congr 1
  simp only [temporalGo_cons, l2, l3]
  rw [if_neg cond2, if_pos cond3]
  rfl

/-- Concrete instantiation of claim C3 at `t0 = 1000000`. -/
theorem filterTemporalDuplicates_anchored_witness :
    filterTemporalDuplicates 3600000
        [⟨"1", "Bitcoin steady", "https://a.com/1", some "a.com", some 1000000⟩,
         ⟨"2", "Bitcoin steady", "https://a.com/2", some "a.com", some 2800000⟩,
         ⟨"3", "Bitcoin steady", "https://a.com/3", some "a.com", some 8200000⟩] =
      [⟨"1", "Bitcoin steady", "https://a.com/1", some "a.com", some 1000000⟩,
       ⟨"3", "Bitcoin steady", "https://a.com/3", some "a.com", some 8200000⟩] :=
  filterTemporalDuplicates_anchored _ _ _ 1000000 (by decide) (by decide)
    (by decide) (by decide) (by decide) (by decide)

/-- Claim C4 as stated is false: two same-key articles whose timestamps are
both missing are both coerced to epoch zero, but the later one is *kept*,
not rejected, because the stored zero timestamp is falsy and passes the
`!lastSeen` check like a missing entry. -/
theorem filterTemporal_missing_both_kept_cex :
    generateDedupeKey (⟨"1", "Same title", "https://a.com/x", some "a.com", none⟩ : Article) =
      generateDedupeKey (⟨"2", "Same title", "https://a.com/y", some "a.com", none⟩ : Article) ∧
    filterTemporalDuplicates 3600000
        [⟨"1", "Same title", "https://a.com/x", some "a.com", none⟩,
         ⟨"2", "Same title", "https://a.com/y", some "a.com", none⟩] =
      [⟨"1", "Same title", "https://a.com/x", some "a.com", none⟩,
       ⟨"2", "Same title", "https://a.com/y", some "a.com", none⟩] :=
  ⟨by decide, by decide⟩

/-- Claim C4, amended: an article with a missing `ts_published` is treated
as published at epoch zero; two same-key articles both lacking timestamps
appear simultaneous, but since the stored epoch-zero timestamp is falsy it
acts like the absence of a prior kept article, so for every positive
`windowMs` *both* are kept. -/
theorem filterTemporal_missing_both_kept (a b : Article) (w : Int)
    (hk : generateDedupeKey b = generateDedupeKey a)
    (ha : a.ts_published = none) (hb : b.ts_published = none)
    (hw : 0 < w) :
    articleTime a = 0 ∧ articleTime b = 0 ∧
    filterTemporalDuplicates w [a, b] = [a, b] := by
  have ea : articleTime a = 0 := by simp [articleTime, ha]
  have eb : articleTime b = 0 := by simp [articleTime, hb]
  refine ⟨ea, eb, ?_⟩
  have lb : seenLookup (generateDedupeKey b)
      [(generateDedupeKey a, articleTime a)] = some 0 := by
    simp [seenLookup, hk, ea]
  show a :: temporalGo w [(generateDedupeKey a, articleTime a)] [b] = [a, b]
  congr 1
  simp only [temporalGo_cons, lb]
  rw [if_pos (Or.inl trivial)]
  rfl

/-- Concrete instantiation of claim C4 (amended). -/
theorem filterTemporal_missing_both_kept_witness :
    articleTime (⟨"1", "No date", "https://a.com/x", some "a.com", none⟩ : Article) = 0 ∧
    articleTime (⟨"2", "No date", "https://a.com/y", some "a.com", none⟩ : Article) = 0 ∧
    filterTemporalDuplicates 3600000
        [⟨"1", "No date", "https://a.com/x", some "a.com", none⟩,
         ⟨"2", "No date", "https://a.com/y", some "a.com", none⟩] =
      [⟨"1", "No date", "https://a.com/x", some "a.com", none⟩,
       ⟨"2", "No date", "https://a.com/y", some "a.com", none⟩] :=
  filterTemporal_missing_both_kept _ _ 3600000 (by decide) (by decide) (by decide)
    (by decide)

/-- Claim C5 as stated is false: the spec's reading of the topic key sorts
the qualifying words alphabetically *before* taking the first 3
(`specTopicKey`), while the source slices the first 3 *before* sorting.
The two titles below have the same spec topic key but land in different
groups. -/
theorem groupArticlesByTopic_sort_order_cex :
    specTopicKey "zulu yankee xray alpha" = specTopicKey "alpha xray yankee" ∧
    extractTopicKey "zulu yankee xray alpha" ≠ extractTopicKey "alpha xray yankee" ∧
    groupArticlesByTopic
        [⟨"1", "zulu yankee xray alpha", "https://a.com/1", some "a.com", none⟩,
         ⟨"2", "alpha xray yankee", "https://a.com/2", some "a.com", none⟩] =
      [[⟨"1", "zulu yankee xray alpha", "https://a.com/1", some "a.com", none⟩],
       [⟨"2", "alpha xray yankee", "https://a.com/2", some "a.com", none⟩]] :=
  ⟨by decide, by decide, by decide⟩

/-- Claim C5, amended: the topic key keeps the words of the normalized
title longer than 3 characters, takes at most the first 3 such words in
order of appearance and then sorts those alphabetically, joining with
single spaces (`"other"` when no word qualifies); two articles are placed
in the same group exactly when their topic keys are equal. -/
theorem groupArticlesByTopic_key_grouping :
    (∀ (l : List Article) (a b : Article), a ∈ l → b ∈ l →
        ((∃ g ∈ groupArticlesByTopic l, a ∈ g ∧ b ∈ g) ↔
          extractTopicKey a.title = extractTopicKey b.title)) ∧
    (∀ title : String,
        (∀ w ∈ qualifyingWords title, 3 < w.length) ∧
        (qualifyingWords title = [] → extractTopicKey title = "other") ∧
        (qualifyingWords title ≠ [] →
          ∃ ws : List String, ws.Perm ((qualifyingWords title).take 3) ∧
            ws.Sorted (fun x y => strLe x y = true) ∧
            extractTopicKey title = strJoin " " ws)) := by
  constructor
  · intro l a b ha hb
    constructor
    · rintro ⟨g, hg, hag, hbg⟩
      rcases List.mem_map.mp hg with ⟨p, hp, rfl⟩
      have hinv := groupGo_inv l [] (by intro p hp; simp at hp)
      exact (hinv p hp a hag).trans (hinv p hp b hbg).symm
    · intro hk
      rcases groupGo_complete l [] a ha with ⟨p, hp, hpk, hpa⟩
      rcases groupGo_complete l [] b hb with ⟨q, hq, hqk, hqb⟩
      have hnd := groupGo_fst_nodup l [] (by simp)
      have hpq : p = q := fst_nodup_inj _ hnd p hp q hq (by rw [hpk, hqk, hk])
      subst hpq
      exact ⟨p.2, List.mem_map.mpr ⟨p, hp, rfl⟩, hpa, hqb⟩
  · intro title
    refine ⟨?_, ?_, ?_⟩
    · intro w hw
      rw [qualifyingWords] at hw
      simpa using (List.mem_filter.mp hw).2
    · intro h
      simp only [extractTopicKey, h]
      rfl
    · intro h
      refine ⟨sortJs ((qualifyingWords title).take 3), sortJs_perm _, sortJs_sorted _, ?_⟩
      have htk : (qualifyingWords title).take 3 ≠ [] := by
        cases hq : qualifyingWords title with
        | nil => exact absurd hq h
        | cons q qs => simp
      have hne : strJoin " " (sortJs ((qualifyingWords title).take 3)) ≠ "" := by
        cases hs : sortJs ((qualifyingWords title).take 3) with
        | nil =>
          exfalso
          have hlen := (sortJs_perm ((qualifyingWords title).take 3)).length_eq
          rw [hs] at hlen
          exact htk (List.eq_nil_of_length_eq_zero hlen.symm)
        | cons w rest =>
          have hwmem : w ∈ (qualifyingWords title).take 3 :=
            (sortJs_perm _).mem_iff.mp (hs ▸ List.mem_cons_self w rest)
          have hwq : w ∈ qualifyingWords title := List.take_subset 3 _ hwmem
          have hwlen : 3 < w.length := by
            rw [qualifyingWords] at hwq
            simpa using (List.mem_filter.mp hwq).2
          have hwne : w ≠ "" := by
            intro heq
            rw [heq] at hwlen
            simp at hwlen
          exact strJoin_space_ne_empty w rest hwne
      show (if strJoin " " (sortJs ((qualifyingWords title).take 3)) = "" then "other"
          else strJoin " " (sortJs ((qualifyingWords title).take 3))) =
        strJoin " " (sortJs ((qualifyingWords title).take 3))
      rw [if_neg hne]

/-- Concrete instantiation of claim C5 (amended): two titles whose first 3
qualifying words coincide up to order land in one group, and a title with
no qualifying words gets key `"other"`. -/
theorem groupArticlesByTopic_key_grouping_witness :
    (∃ g ∈ groupArticlesByTopic
        [⟨"1", "bitcoin mining surges", "https://a.com/1", some "a.com", none⟩,
         ⟨"2", "mining bitcoin surges again today", "https://a.com/2", some "a.com", none⟩],
      (⟨"1", "bitcoin mining surges", "https://a.com/1", some "a.com", none⟩ : Article) ∈ g ∧
      (⟨"2", "mining bitcoin surges again today", "https://a.com/2", some "a.com", none⟩ : Article) ∈ g) ∧
    extractTopicKey "a b c" = "other" :=
  ⟨(groupArticlesByTopic_key_grouping.1 _ _ _ (by decide) (by decide)).mpr (by decide),
   (groupArticlesByTopic_key_grouping.2 "a b c").2.1 (by decide)⟩

/-- Claim C6: `detectLanguage` classifies any string containing a Cyrillic
character as `ru` regardless of co-occurring Latin characters (the
Cyrillic check precedes the Latin check); with no Cyrillic but at least
one Latin character it returns `en`; with neither (including empty text)
it returns `unknown`. -/
theorem detectLanguage_cyrillic_first (s : String) :
    (s.toList.any isCyrillicChar = true → detectLanguage s = .ru) ∧
    (s.toList.any isCyrillicChar = false → s.toList.any isLatinChar = true →
      detectLanguage s = .en) ∧
    (s.toList.any isCyrillicChar = false → s.toList.any isLatinChar = false →
      detectLanguage s = .unknown) := by
  by_cases he : s = ""
  · subst he
    exact ⟨fun h => absurd h (by decide), fun _ hl => absurd hl (by decide),
      fun _ _ => rfl⟩
  · refine ⟨fun h => ?_, fun hc hl => ?_, fun hc hl => ?_⟩
    · rw [detectLanguage, if_neg he, if_pos h]
    · rw [detectLanguage, if_neg he, if_neg (by rw [hc]; simp), if_pos hl]
    · rw [detectLanguage, if_neg he, if_neg (by rw [hc]; simp),
        if_neg (by rw [hl]; simp)]

/-- Concrete instantiation of claim C6: mixed Cyrillic/Latin → `ru`,
Latin-only → `en`, digits and symbols → `unknown`. -/
theorem detectLanguage_cyrillic_first_witness :
    detectLanguage "Биткоин BTC rally" = .ru ∧
    detectLanguage "SAA Alliance" = .en ∧
    detectLanguage "123 !@#" = .unknown :=
  ⟨(detectLanguage_cyrillic_first "Биткоин BTC rally").1 (by decide),
   (detectLanguage_cyrillic_first "SAA Alliance").2.1 (by decide) (by decide),
   (detectLanguage_cyrillic_first "123 !@#").2.2 (by decide) (by decide)⟩

/-- Claim C7: `dedupeArticles` is idempotent. -/
theorem dedupeArticles_idempotent :
    ∀ l : List Article, dedupeArticles (dedupeArticles l) = dedupeArticles l := by
  intro l
  apply firstByGo_eq_self
  · intro x _
    simp
  · exact firstByGo_keys_nodup generateDedupeKey l []

/-- Claim C8 as stated is false in its unknown-token clause: a token that
is not a whitelist member is not always dropped whole — a token longer
than 4 characters is re-split on embedded whitelist symbols and can be
*partially* represented.  `"BTCUSD"` is not whitelisted, yet the output is
`"BTC"`, not the empty string. -/
theorem normalizeTickers_partial_token_cex :
    "BTCUSD".toList ∉ whitelistL ∧
    normalizeTickers "BTCUSD" = "BTC" ∧
    normalizeTickers "BTCUSD" ≠ "" :=
  ⟨by decide, by decide, by decide⟩

/-- Claim C8, amended: the symbol list produced by `normalizeTickers` is a
subset of the ticker whitelist with no symbol occurring twice, kept in
first-seen insertion order — it *is* the first-occurrence collapse of the
whitelist-filtered token stream (each element's first occurrence kept in
place, later duplicates deleted: `firstSeenDedup`, defined from the spec's
words, fixing the concrete output order); empty input yields the empty
string.  Tokens of at most 4 characters that are not whitelist members are
dropped whole (a batch of only such tokens yields the empty string), but
longer unknown tokens are re-split on embedded whitelist symbols and may
be partially represented. -/
theorem normalizeTickers_whitelist_invariants :
    (∀ raw : String,
        (∀ t ∈ tickersOf raw, t ∈ whitelistL) ∧
        (tickersOf raw).Nodup ∧
        (tickersOf raw).Sublist
          ((mergedOf raw).filter (fun t => t ∈ whitelistL)) ∧
        (∀ t, t ∈ tickersOf raw ↔
          t ∈ (mergedOf raw).filter (fun t => t ∈ whitelistL)) ∧
        tickersOf raw =
          firstSeenDedup ((mergedOf raw).filter (fun t => t ∈ whitelistL))) ∧
    (∀ raw : String, (∀ t ∈ tokensOf raw, t.length ≤ 4 ∧ t ∉ whitelistL) →
        normalizeTickers raw = "") ∧
    normalizeTickers "" = "" := by
  refine ⟨?_, normalizeTickers_short_unknown_empty, rfl⟩
  intro raw
  refine ⟨?_, ?_, firstByGo_sublist _ _ [], ?_, ?_⟩
  · intro t ht
    have hmem : t ∈ (mergedOf raw).filter (fun t => t ∈ whitelistL) :=
      (firstByGo_sublist id _ []).subset ht
    simpa using (List.mem_filter.mp hmem).2
  · have := firstByGo_keys_nodup (id : List Char → List Char)
      ((mergedOf raw).filter (fun t => t ∈ whitelistL)) []
    simpa using this
  · intro t
    constructor
    · intro ht
      exact (firstByGo_sublist id _ []).subset ht
    · intro ht
      rcases firstByGo_complete id _ [] t ht with hs | ⟨x, hx, hxt⟩
      · simp at hs
      · have hxe : x = t := hxt
        exact hxe ▸ hx
  · rw [tickersOf]
    exact jsSetDedup_eq_firstSeenDedup _

/-- Concrete instantiation of claim C8 (amended) pinning the ordered output
on `"BTC, ETH, BTC"` (first-seen order `BTC` before `ETH`, second `BTC`
dropped) and the whole-drop of a batch of short unknown tokens. -/
theorem normalizeTickers_whitelist_invariants_witness :
    tickersOf "BTC, ETH, BTC" = ["BTC".toList, "ETH".toList] ∧
    (tickersOf "BTC, ETH, BTC").Nodup ∧
    "BTC".toList ∈ whitelistL ∧
    normalizeTickers "FAKE, XX" = "" ∧
    normalizeTickers "" = "" :=
  ⟨((normalizeTickers_whitelist_invariants.1 "BTC, ETH, BTC").2.2.2.2).trans (by decide),
   (normalizeTickers_whitelist_invariants.1 "BTC, ETH, BTC").2.1,
   (normalizeTickers_whitelist_invariants.1 "BTC, ETH, BTC").1 "BTC".toList (by decide),
   normalizeTickers_whitelist_invariants.2.1 "FAKE, XX" (by decide),
   normalizeTickers_whitelist_invariants.2.2⟩

/-- Claim C9 as stated is false at one corner: a whitespace-only text has
whitespace-run word count 0, but with `maxWords = 0` the code does not
return it unchanged — `trim` gives `""`, whose JavaScript split is `[""]`
of length 1 > 0, so the ellipsis branch runs and returns `"…"`. -/
theorem truncateByWords_whitespace_zero_cex :
    wordCount "   " = 0 ∧
    truncateByWords "   " 0 = "…" ∧
    truncateByWords "   " 0 ≠ "   " :=
  ⟨by decide, by decide, by decide⟩

/-- Claim C9, amended: for every `maxWords ≥ 1`, a text whose
whitespace-run word count is at most `maxWords` is returned unchanged;
when the word count exceeds `maxWords` the result is the first `maxWords`
words joined by single spaces with exactly one ellipsis character appended
and no space before it (so no word is cut); empty input yields the empty
string for every `maxWords`. -/
theorem truncateByWords_word_bounded :
    (∀ (text : String) (maxWords : Nat), 1 ≤ maxWords →
        (wordCount text ≤ maxWords → truncateByWords text maxWords = text) ∧
        (maxWords < wordCount text →
          truncateByWords text maxWords =
            (joinSep [' '] ((wordsOfChars text.toList).take maxWords) ++ ['…']).asString)) ∧
    (∀ maxWords : Nat, truncateByWords "" maxWords = "") := by
  constructor
  · intro text m hm
    obtain ⟨h1, h2⟩ := truncateByWordsL_spec text.toList m hm
    constructor
    · intro hc
      rw [truncateByWords, h1 hc]
      rfl
    · intro hc
      rw [truncateByWords, h2 hc]
  · intro m
    rfl

/-- Concrete instantiation of claim C9 (amended): a 5-word text is
untouched under a limit of 10 and truncated to `"one two…"` under a limit
of 2. -/
theorem truncateByWords_word_bounded_witness :
    truncateByWords "This is a short text" 10 = "This is a short text" ∧
    truncateByWords "one two three" 2 = "one two…" :=
  ⟨(truncateByWords_word_bounded.1 "This is a short text" 10 (by decide)).1 (by decide),
   ((truncateByWords_word_bounded.1 "one two three" 2 (by decide)).2 (by decide)).trans
     (by decide)⟩

/-- Claim C10: a stored "last kept" timestamp of exactly zero is
indistinguishable from having no prior kept article under that key: the
next article with that key is kept regardless of `windowMs` and the stored
timestamp is overwritten with its own; consequently a run of articles all
lacking timestamps is returned in full. -/
theorem temporalGo_zero_stored_keeps :
    (∀ (w : Int) (seen : List (String × Int)) (a : Article) (rest : List Article),
        seenLookup (generateDedupeKey a) seen = some 0 →
        temporalGo w seen (a :: rest) =
          a :: temporalGo w ((generateDedupeKey a, articleTime a) :: seen) rest) ∧
    (∀ (w : Int) (l : List Article), (∀ a ∈ l, a.ts_published = none) →
        filterTemporalDuplicates w l = l) := by
  constructor
  · intro w seen a rest h
    simp only [temporalGo_cons, h]
    rw [if_pos (Or.inl trivial)]
  · intro w l h
    exact temporalGo_all_missing w l [] (by intro p hp; simp at hp)
      (fun a ha => by simp [articleTime, h a ha])

/-- Concrete instantiation of claim C10: with `("key", 0)` stored, the next
article with that dedupe key is kept even under a huge window, and a batch
of two timestamp-less same-key articles survives in full. -/
theorem temporalGo_zero_stored_keeps_witness :
    temporalGo 999999999
        [(generateDedupeKey (⟨"1", "No date", "https://a.com/x", some "a.com", none⟩ : Article), 0)]
        [⟨"1", "No date", "https://a.com/x", some "a.com", none⟩] =
      (⟨"1", "No date", "https://a.com/x", some "a.com", none⟩ : Article) ::
        temporalGo 999999999
          [(generateDedupeKey (⟨"1", "No date", "https://a.com/x", some "a.com", none⟩ : Article),
            articleTime (⟨"1", "No date", "https://a.com/x", some "a.com", none⟩ : Article)),
           (generateDedupeKey (⟨"1", "No date", "https://a.com/x", some "a.com", none⟩ : Article), 0)]
          [] ∧
    filterTemporalDuplicates 999999999
        [⟨"5", "Still no date", "https://b.com/x", some "b.com", none⟩,
         ⟨"6", "Still no date", "https://b.com/y", some "b.com", none⟩] =
      [⟨"5", "Still no date", "https://b.com/x", some "b.com", none⟩,
       ⟨"6", "Still no date", "https://b.com/y", some "b.com", none⟩] :=
  ⟨temporalGo_zero_stored_keeps.1 999999999 _ _ _ (by decide),
   temporalGo_zero_stored_keeps.2 999999999 _ (by decide)⟩

end NewsAnalytics
